import Mathlib

/-!
Verification of the route-compiler utilities (createRoutes, cleanChildrenRoutes,
flatRoutes) of the nuxt.js builder utils module, shallowly embedded in Lean.

Strings are manipulated through their underlying character lists so that every
definition reduces inside the kernel.  JS semantics notes:
  - String.prototype.replace with a string pattern replaces the first
    occurrence only;
  - Array.prototype.sort is modelled as a stable insertion sort driven by the
    comparator (the source comparator never returns 0);
  - a JS object field that may be removed with delete, or never set, is an
    Option.
-/

set_option maxRecDepth 8000

/-- Character list of a string (String.data). -/
def chars (s : String) : List Char := s.data

/-- String from a character list. -/
def ofChars (l : List Char) : String := ⟨l⟩

/-- Splitting of a character list at a separator character, with JS
String.prototype.split semantics: the empty list splits to one empty group,
separators at either end produce empty groups. -/
def chSplit (c : Char) : List Char → List (List Char)
  | [] => [[]]
  | x :: xs => match chSplit c xs with
    | [] => [[]]
    | g :: gs => if x = c then [] :: g :: gs else (x :: g) :: gs

/-- JS s.split(c) for a one-character separator. -/
def splitOnChar (c : Char) (s : String) : List String := (chSplit c (chars s)).map ofChars

/-- JS s.indexOf(c) > -1: the string contains the character. -/
def hasChar (c : Char) (s : String) : Bool := (chars s).any (fun x => decide (x = c))

/-- Removal of the first occurrence of a character from a character list. -/
def removeFirstCharList (c : Char) : List Char → List Char
  | [] => []
  | x :: xs => if x = c then xs else x :: removeFirstCharList c xs

/-- JS s.replace(c, empty string) with a one-character string pattern:
removes the first occurrence only. -/
def removeFirstChar (c : Char) (s : String) : String := ofChars (removeFirstCharList c (chars s))

/-- Test that a string starts with a given literal (anchored regex test). -/
def strStartsWith (pre s : String) : Bool := (chars pre).isPrefixOf (chars s)

/-- Test that a string ends with a given literal (end-anchored regex test). -/
def endsWithStr (suf s : String) : Bool := (chars suf).isSuffixOf (chars s)

/-- Drop the first n characters of a string. -/
def strDrop (s : String) (n : Nat) : String := ofChars ((chars s).drop n)

/-- Keep all but the last n characters of a string. -/
def dropLastN (n : Nat) (s : String) : String := ofChars ((chars s).take ((chars s).length - n))

/-- JS array.join(c) for a one-character separator. -/
def joinChar (c : Char) : List String → String
  | [] => ""
  | [s] => s
  | s :: rest => s ++ ofChars [c] ++ joinChar c rest

/-- JS array.indexOf(t) on an array of strings: first index or -1. -/
def idxOfStr (t : String) : List String → Int
  | [] => -1
  | s :: rest => if s = t then 0 else (let k := idxOfStr t rest; if k = -1 then -1 else k + 1)

/-- Replacement of a run of one or more slashes by a single slash, carrying a
flag telling whether the previous character was a slash.  Implements the JS
replace of two-or-more slashes by one, global. -/
def collapseGo (prevSlash : Bool) : List Char → List Char
  | [] => []
  | x :: xs =>
      if x = '/' then (if prevSlash then collapseGo true xs else '/' :: collapseGo true xs)
      else x :: collapseGo false xs

/-- JS file.replace of repeated slashes by a single slash. -/
def collapseSlashes (s : String) : String := ofChars (collapseGo false (chars s))

/-- JS file.replace(RegExp(anchored pagesDir), empty): strip the pages-root
literal from the front when present. -/
def stripPagesDir (pagesDir file : String) : String :=
  if strStartsWith pagesDir file then strDrop file pagesDir.length else file

/-- JS file.replace of a trailing .vue or .js extension (first alternative
that matches at the end, applied once). -/
def stripExt (file : String) : String :=
  if endsWithStr ".vue" file then dropLastN 4 file
  else if endsWithStr ".js" file then dropLastN 3 file
  else file

/-- Modelled from the spec: section 6 treats path resolution (the JS helper r,
which delegates to path.resolve with separator normalization) as an external
pure resolve(base, relative) collaborator; modelled as joining base and
relative with a slash.  The route compiler only carries this value opaquely. -/
def r (srcDir file : String) : String := srcDir ++ "/" ++ file

/-- Key sequence of one input file: strip the pages-root literal, strip the
extension, collapse repeated slashes, split on the slash and drop the first
group (the text before the leading slash). -/
def fileToKeys (pagesDir file : String) : List String :=
  (splitOnChar '/' (collapseSlashes (stripExt (stripPagesDir pagesDir file)))).drop 1

/-- Route node: the JS route object.  name is deleted by the cleaning pass on
wrapper nodes, chunkName is only set when the key walk runs at least once, and
hasChildren distinguishes an absent children field from a present (possibly
empty) children array. -/
inductive Route : Type where
  | mk (name : Option String) (path : String) (component : String)
       (chunkName : Option String) (hasChildren : Bool) (children : List Route)

/-- Name field of a route node. -/
def Route.name : Route → Option String
  | .mk n _ _ _ _ _ => n

/-- Path field of a route node. -/
def Route.path : Route → String
  | .mk _ p _ _ _ _ => p

/-- Component field of a route node. -/
def Route.component : Route → String
  | .mk _ _ c _ _ _ => c

/-- ChunkName field of a route node. -/
def Route.chunkName : Route → Option String
  | .mk _ _ _ ck _ _ => ck

/-- Presence of the children field on a route node. -/
def Route.hasChildren : Route → Bool
  | .mk _ _ _ _ h _ => h

/-- Children list of a route node (empty when the field is absent). -/
def Route.children : Route → List Route
  | .mk _ _ _ _ _ cs => cs

/-- JS child.children = child.children or [] followed by an assignment of the
children array: marks the field present and stores the new list. -/
def Route.setKids : Route → List Route → Route
  | .mk n p c ck _ _, kids => .mk n p c ck true kids

/-- Class of one path token in the ordering comparator: 2 for the catch-all
token, 1 for a token containing a colon, 0 otherwise. -/
def pathCls (tok : String) : Int :=
  if tok = "*" then 2 else if hasChar ':' tok then 1 else 0

/-- JS truthiness of the token found just after the end of the shorter path:
present and non-empty. -/
def truthyHead : List String → Bool
  | [] => false
  | t :: _ => decide (t ≠ "")

/-- Token loop of the route comparator.  Mirrors the source for-loop over the
tokens of the first path: the first position with distinct classes decides; if
the second path runs out while classes still tie, the comparison is forced at
its last token (catch-all there sorts first, otherwise the longer first path
sorts after); if the first path runs out while classes still tie, a trailing
catch-all on it sorts after a continuing second path, otherwise before.  The
wildcard second patterns are unreachable for token lists produced by splitting
non-empty paths. -/
def cmpTokens : List String → List String → Int
  | x :: xs, y :: ys =>
      let res := pathCls x - pathCls y
      let res := if ys = [] ∧ res = 0 then (if x = "*" then -1 else 1) else res
      if res ≠ 0 then res
      else if xs = [] then (if x = "*" ∧ truthyHead ys then 1 else -1)
      else cmpTokens xs ys
  | _, _ => 1

/-- Test of the anchored JS regex: path starts with a slash followed by a colon
or an asterisk. -/
def dynStart (p : String) : Bool :=
  match chars p with
  | '/' :: c :: _ => decide (c = ':') || decide (c = '*')
  | _ => false

/-- Comparator passed to the sibling sort in createRoutes.  Empty paths first,
then the special root-path cases, then the token loop. -/
def routesSortCmp (a b : Route) : Int :=
  if a.path = "" then -1
  else if b.path = "" then 1
  else if a.path = "/" then (if dynStart b.path then -1 else 1)
  else if b.path = "/" then (if dynStart a.path then 1 else -1)
  else cmpTokens (splitOnChar '/' a.path) (splitOnChar '/' b.path)

/-- Stable insertion of a route into an already processed sibling list: the
new element passes every element it does not strictly precede under the
comparator. -/
def insertSorted (x : Route) : List Route → List Route
  | [] => [x]
  | y :: ys => if routesSortCmp x y < 0 then x :: y :: ys else y :: insertSorted x ys

/-- Stable sort of a sibling list by the route comparator, modelling the
parent.sort call after each insertion. -/
def sortRoutes (l : List Route) : List Route :=
  l.foldl (fun acc x => insertSorted x acc) []

/-- JS sanatizedKey: keys starting with an underscore lose that first
underscore (replace of the first occurrence). -/
def sanatizedKey (key : String) : String :=
  if strStartsWith "_" key then strDrop key 1 else key

/-- Accumulation of the route name over one key: dash-join the sanitized key
onto the accumulated name, then append the literal all for the bare
underscore key. -/
def routeNameStep (accName key : String) : String :=
  (if accName = "" then sanatizedKey key else accName ++ "-" ++ sanatizedKey key) ++
    (if key = "_" then "all" else "")

/-- Path text contributed by one unmatched key: a trailing index key
contributes a slash at the root and nothing when nested; otherwise a slash
followed by the token (asterisk for the bare underscore, colon form for an
underscore-prefixed key, the key itself otherwise), with a question mark
appended for underscore-prefixed keys other than the bare underscore. -/
def pathContrib (key : String) (isLast : Bool) (i : Nat) : String :=
  if key = "index" ∧ isLast then (if i > 0 then "" else "/")
  else
    "/" ++ (if key = "_" then "*"
            else if strStartsWith "_" key then ":" ++ strDrop key 1
            else key) ++
      (if key ≠ "_" ∧ strStartsWith "_" key then "?" else "")

/-- Index of the first sibling whose name field equals the given name, the
lodash find by name shorthand. -/
def findIdxByName (n : String) : List Route → Option Nat
  | [] => none
  | rt :: rts => if rt.name = some n then some 0 else (findIdxByName n rts).map (· + 1)

/-- Replacement of the element at an index by the image under f. -/
def updateAt (f : α → α) : Nat → List α → List α
  | _, [] => []
  | 0, x :: xs => f x :: xs
  | n + 1, x :: xs => x :: updateAt f n xs

/-- Walk of one file key sequence through the forest, carrying the
accumulated name and path.  On a name match the walk descends into the
matched child (marking its children array present) and resets the
accumulated path; otherwise the key contributes path text.  After the last
key the route object is pushed into the current sibling list, which is then
re-sorted. -/
def insertKeys (component : String) (chunk : Option String) :
    List String → Nat → String → String → List Route → List Route
  | [], _, accName, accPath, siblings =>
      sortRoutes (siblings ++ [Route.mk (some accName) accPath component chunk false []])
  | key :: rest, i, accName, accPath, siblings =>
      let newName := routeNameStep accName key
      match findIdxByName newName siblings with
      | some j =>
          updateAt
            (fun child =>
              Route.setKids child
                (insertKeys component chunk rest (i + 1) newName "" (Route.children child)))
            j siblings
      | none =>
          insertKeys component chunk rest (i + 1) newName
            (accPath ++ pathContrib key rest.isEmpty i) siblings

/-- Forest produced by the per-file loop of createRoutes, before the cleaning
pass. -/
def buildRoutes (files : List String) (srcDir pagesDir : String) : List Route :=
  files.foldl
    (fun routes file =>
      let keys := fileToKeys pagesDir file
      insertKeys (r srcDir file) (if keys.isEmpty then none else some (stripExt file))
        keys 0 "" "" routes)
    []

/-- First pass of cleanChildrenRoutes: gather the dash-split names of the
sibling routes whose name is index or ends in dash index, together with the
minimal position of the index component among them (-1 when there are none). -/
def collectRoutesIndex (routes : List Route) : Int × List (List String) :=
  routes.foldl
    (fun acc route =>
      let n := route.name.getD ""
      if endsWithStr "-index" n || n = "index" then
        let res := splitOnChar '-' n
        let s := idxOfStr "index" res
        (if acc.1 = -1 ∨ s < acc.1 then s else acc.1, acc.2 ++ [res])
      else acc)
    (-1, [])

/-- Agreement of the dash-split route name with one gathered index name on
every position below k (the source inner loop breaks at the first mismatch
before the anchor). -/
def namesAgree (names rr : List String) (k : Nat) : Bool :=
  (List.range k).all (fun a => decide (names.get? a = rr.get? a))

/-- Action of one gathered index name on the split path of a route containing
the optional marker: at anchor distance i from the minimal start, when the
split path is long enough and the name prefixes agree, the question mark is
removed from the token at position i. -/
def indexStrip (names : List String) (start : Int) (ps : List String) (rr : List String) :
    List String :=
  let i : Int := idxOfStr "index" rr - start
  if i < (ps.length : Int) then
    if 0 ≤ i ∧ namesAgree names rr i.toNat then updateAt (removeFirstChar '?') i.toNat ps
    else ps
  else ps

/-- Path rewriting of one route in cleanChildrenRoutes: strip the first slash
in child mode, and when the path carries an optional marker, re-derive it from
its slash-split tokens after every gathered index name has acted on them. -/
def cleanPath (isChild : Bool) (start : Int) (ri : List (List String)) (name : Option String)
    (path0 : String) : String :=
  let path1 := if isChild then removeFirstChar '/' path0 else path0
  if hasChar '?' path1 then
    let names := splitOnChar '-' (name.getD "")
    let paths := splitOnChar '/' path1
    let paths := if isChild then paths else paths.drop 1
    let paths := ri.foldl (fun ps rr => indexStrip names start ps rr) paths
    (if isChild then "" else "/") ++ joinChar '/' paths
  else path1

/-- Removal of one trailing dash index from a route name (JS replace with an
end-anchored regex, applied once; a name that is exactly index is untouched). -/
def stripDashIndex (n : String) : String :=
  if endsWithStr "-index" n then dropLastN 6 n else n

mutual

/-- Second pass of cleanChildrenRoutes on one route: rewrite the path, strip
one trailing dash index from the name, and when the children field is present
delete the name if some child has an empty path and clean the children
recursively in child mode. -/
def cleanRoute (isChild : Bool) (start : Int) (ri : List (List String)) : Route → Route
  | .mk name path comp chunk hasKids kids =>
      let newPath := cleanPath isChild start ri name path
      let strippedName := some (stripDashIndex (name.getD ""))
      if hasKids then
        Route.mk
          (if kids.any (fun c => decide (c.path = "")) then none else strippedName)
          newPath comp chunk true
          (cleanList true (collectRoutesIndex kids).1 (collectRoutesIndex kids).2 kids)
      else
        Route.mk strippedName newPath comp chunk false kids

/-- Second pass of cleanChildrenRoutes over a sibling list with gathered index
data. -/
def cleanList (isChild : Bool) (start : Int) (ri : List (List String)) : List Route → List Route
  | [] => []
  | rt :: rts => cleanRoute isChild start ri rt :: cleanList isChild start ri rts

end

/-- Cleaning pass over a sibling list: gather the index data of the list and
rewrite each route with it. -/
def cleanChildrenRoutes (routes : List Route) (isChild : Bool) : List Route :=
  cleanList isChild (collectRoutesIndex routes).1 (collectRoutesIndex routes).2 routes

/-- Full route compiler: fold every file into the forest, then run the
cleaning pass on the roots. -/
def createRoutes (files : List String) (srcDir pagesDir : String) : List Route :=
  cleanChildrenRoutes (buildRoutes files srcDir pagesDir) false

/-- JS test of a path made only of slashes (the anchored regex of one or more
slashes). -/
def allSlashes (p : String) : Bool := decide (p ≠ "") && (chars p).all (fun x => decide (x = '/'))

/-- Replacement of an all-slash accumulated path by a single slash (JS replace
with the anchored regex; other paths unchanged). -/
def normSlashes (p : String) : String := if allSlashes p then "/" else p

/-- Composition of the accumulated path with a leaf path: when the leaf path
is empty and the accumulated path ends in a slash that trailing slash is
dropped. -/
def composePath (p rp : String) : String :=
  (if rp = "" ∧ (chars p).getLast? = some '/' then dropLastN 1 p else p) ++ rp

mutual

/-- Flattening of one route: a route whose path contains a colon or an
asterisk is skipped entirely; a route with a children field recurses with the
extended prefix, first emitting the root slash when the prefix is empty and
the path is the root; a leaf normalizes the accumulated prefix (this
reassignment persists for the following siblings) and emits the composed
path. -/
def flatOne : Route → String → List String → String × List String
  | .mk _ pa _ _ hasKids kids, p, acc =>
      if hasChar ':' pa || hasChar '*' pa then (p, acc)
      else if hasKids then
        let acc1 := if p = "" ∧ pa = "/" then acc ++ ["/"] else acc
        (p, flatGo kids (p ++ pa ++ "/") acc1)
      else
        let p1 := normSlashes p
        (p1, acc ++ [composePath p1 pa])

/-- Flattening of a sibling list, threading the accumulated prefix (mutated by
leaf processing) and the output list. -/
def flatGo : List Route → String → List String → List String
  | [], _, acc => acc
  | rt :: rts, p, acc =>
      let st := flatOne rt p acc
      flatGo rts st.1 st.2

end

/-- JS flatRoutes(router, path, routes): flatten the forest into the list of
composed path strings. -/
def flatRoutes (router : List Route) (p : String) (acc : List String) : List String :=
  flatGo router p acc

mutual

/-- Components carried by one route subtree, in preorder. -/
def routeComps : Route → List String
  | .mk _ _ c _ _ kids => c :: listComps kids

/-- Components carried by a forest, in preorder. -/
def listComps : List Route → List String
  | [] => []
  | rt :: rts => routeComps rt ++ listComps rts

end

/-- Priority separating empty paths (0) from non-empty paths (1), matching the
first two tests of the comparator. -/
def emptyPrio (rt : Route) : Nat := if rt.path = "" then 0 else 1

/-- Well-formed first path token, as produced from conventional file names:
the bare catch-all, a colon-led dynamic token, or non-empty static text free
of colon and asterisk. -/
def tokOk (t : String) : Bool :=
  decide (t = "*") ||
  decide ((chars t).head? = some ':') ||
  (decide (t ≠ "") && !hasChar ':' t && !hasChar '*' t)

/-- Well-formed route path: empty, the root slash, or slash-led with a
well-formed non-empty first token. -/
def wfRoute (rt : Route) : Bool :=
  decide (rt.path = "") || decide (rt.path = "/") ||
  (match splitOnChar '/' rt.path with
   | "" :: t :: _ => tokOk t
   | _ => false)

/-- Path beginning with a static token: non-empty, not the bare root, and not
starting with a dynamic or catch-all token. -/
def staticStart (p : String) : Bool := decide (p ≠ "") && decide (p ≠ "/") && !dynStart p

/-- Priority of a route for the coarse ordering invariant: empty paths, then
static-led paths, then the bare root, then colon-led, then asterisk-led. -/
def clsPrio (rt : Route) : Nat :=
  if rt.path = "" then 0
  else if rt.path = "/" then 2
  else match splitOnChar '/' rt.path with
    | _ :: t :: _ => if pathCls t = 0 then 1 else if pathCls t = 1 then 3 else 4
    | _ => 1

/-- Priority of a route for the root-placement invariant of the comparator:
empty, static-led, the bare root, then dynamic or catch-all led. -/
def rootPrio (rt : Route) : Nat :=
  if rt.path = "" then 0
  else if dynStart rt.path then 3
  else if rt.path = "/" then 2
  else 1

theorem insertSorted_mem {x a : Route} : ∀ {l : List Route},
    a ∈ insertSorted x l ↔ a = x ∨ a ∈ l := by
  intro l
  induction l with
  | nil => simp [insertSorted]
  | cons y ys ih =>
      simp only [insertSorted]
      split
      · simp [List.mem_cons]
      · simp only [List.mem_cons, ih]
        tauto

theorem insertSorted_pairwise (f : Route → Nat) (x : Route) :
    ∀ (l : List Route),
    (∀ y ∈ l, f x < f y → routesSortCmp x y < 0) →
    (∀ y ∈ l, f y < f x → ¬ routesSortCmp x y < 0) →
    List.Pairwise (fun a b => f a ≤ f b) l →
    List.Pairwise (fun a b => f a ≤ f b) (insertSorted x l) := by
  intro l
  induction l with
  | nil => intro _ _ _; simp [insertSorted]
  | cons y ys ih =>
      intro h1 h2 hl
      rw [List.pairwise_cons] at hl
      simp only [insertSorted]
      split
      · rename_i hc
        have hxy : f x ≤ f y := by
          by_contra hlt
          exact h2 y (List.mem_cons_self y ys) (Nat.lt_of_not_le (fun h => hlt h)) hc
        refine List.pairwise_cons.mpr ⟨?_, List.pairwise_cons.mpr hl⟩
        intro z hz
        rcases List.mem_cons.mp hz with rfl | hz
        · exact hxy
        · exact le_trans hxy (hl.1 z hz)
      · rename_i hc
        have hyx : f y ≤ f x := by
          by_contra hlt
          exact hc (h1 y (List.mem_cons_self y ys) (Nat.lt_of_not_le (fun h => hlt h)))
        refine List.pairwise_cons.mpr ⟨?_, ?_⟩
        · intro z hz
          rcases insertSorted_mem.mp hz with rfl | hz
          · exact hyx
          · exact hl.1 z hz
        · exact ih (fun y hy => h1 y (List.mem_cons_of_mem _ hy))
            (fun y hy => h2 y (List.mem_cons_of_mem _ hy)) hl.2

theorem foldl_insert_pairwise (f : Route → Nat) (l : List Route)
    (hf : ∀ a ∈ l, ∀ b ∈ l, f a < f b → routesSortCmp a b < 0 ∧ ¬ routesSortCmp b a < 0) :
    ∀ (rest acc : List Route), (∀ a ∈ rest, a ∈ l) → (∀ a ∈ acc, a ∈ l) →
    List.Pairwise (fun a b => f a ≤ f b) acc →
    List.Pairwise (fun a b => f a ≤ f b)
      (List.foldl (fun acc x => insertSorted x acc) acc rest) := by
  intro rest
  induction rest with
  | nil => intro acc _ _ hacc; simpa using hacc
  | cons x xs ih =>
      intro acc hrest hacc hp
      have hx : x ∈ l := hrest x (List.mem_cons_self x xs)
      simp only [List.foldl_cons]
      refine ih (insertSorted x acc) (fun a ha => hrest a (List.mem_cons_of_mem _ ha)) ?_ ?_
      · intro a ha
        rcases insertSorted_mem.mp ha with rfl | ha
        · exact hx
        · exact hacc a ha
      · refine insertSorted_pairwise f x acc ?_ ?_ hp
        · intro y hy hlt
          exact (hf x hx y (hacc y hy) hlt).1
        · intro y hy hlt
          exact (hf y (hacc y hy) x hx hlt).2

theorem sortRoutes_pairwise (f : Route → Nat) (l : List Route)
    (hf : ∀ a ∈ l, ∀ b ∈ l, f a < f b → routesSortCmp a b < 0 ∧ ¬ routesSortCmp b a < 0) :
    List.Pairwise (fun a b => f a ≤ f b) (sortRoutes l) := by
  have := foldl_insert_pairwise f l hf l [] (fun a ha => ha) (by simp) (by simp)
  simpa [sortRoutes] using this

theorem emptyPrio_lt {a b : Route} (h : emptyPrio a < emptyPrio b) :
    a.path = "" ∧ b.path ≠ "" := by
  unfold emptyPrio at h
  by_cases ha : a.path = ""
  · by_cases hb : b.path = ""
    · simp [ha, hb] at h
    · exact ⟨ha, hb⟩
  · by_cases hb : b.path = ""
    · simp [ha, hb] at h
    · simp [ha, hb] at h

/-- C10: after every re-sort performed by createRoutes, every sibling with an
empty path (a node fully absorbed into its parent by name merging) comes
before every sibling with a non-empty path. -/
theorem sorted_empty_paths_first (l : List Route) :
    List.Pairwise (fun a b => b.path = "" → a.path = "") (sortRoutes l) := by
  have h := sortRoutes_pairwise emptyPrio l ?_
  · refine h.imp ?_
    intro a b hab hb
    have hfb : emptyPrio b = 0 := by simp [emptyPrio, hb]
    have : emptyPrio a = 0 := by omega
    by_contra ha
    simp [emptyPrio, ha] at this
  · intro a _ b _ hlt
    obtain ⟨ha, hb⟩ := emptyPrio_lt hlt
    constructor
    · simp [routesSortCmp, ha]
    · simp [routesSortCmp, ha, hb]

theorem sorted_empty_paths_first_witness :
    List.Pairwise (fun a b => b.path = "" → a.path = "")
      (sortRoutes [Route.mk (some "a") "/a" "c" none false [],
                   Route.mk (some "b") "" "c" none false []]) :=
  sorted_empty_paths_first _

theorem bool_not_true {b : Bool} : (!b) = true ↔ b = false := by cases b <;> simp

theorem hasChar_iff {c : Char} {s : String} : hasChar c s = true ↔ c ∈ chars s := by
  simp only [hasChar, List.any_eq_true, decide_eq_true_eq]
  constructor
  · rintro ⟨x, hx, rfl⟩; exact hx
  · intro h; exact ⟨c, h, rfl⟩

theorem chSplit_ne_nil (c : Char) (l : List Char) : chSplit c l ≠ [] := by
  cases l with
  | nil => simp [chSplit]
  | cons x xs =>
      rw [chSplit]
      rcases h : chSplit c xs with _ | ⟨g, gs⟩
      · simp
      · by_cases hx : x = c <;> simp [hx]

theorem chSplit_head (c : Char) (l : List Char) :
    ∃ gs, chSplit c l = (l.takeWhile (fun a => !decide (a = c))) :: gs := by
  induction l with
  | nil => exact ⟨[], rfl⟩
  | cons x xs ih =>
      obtain ⟨gs, hgs⟩ := ih
      by_cases hx : x = c
      · refine ⟨(xs.takeWhile (fun a => !decide (a = c))) :: gs, ?_⟩
        rw [chSplit, hgs]
        simp [hx, List.takeWhile_cons]
      · refine ⟨gs, ?_⟩
        rw [chSplit, hgs]
        simp [hx, List.takeWhile_cons]

theorem chSplit_cons_sep (c : Char) (cs : List Char) :
    chSplit c (c :: cs) = [] :: chSplit c cs := by
  rw [chSplit]
  rcases hx : chSplit c cs with _ | ⟨g, gs⟩
  · exact absurd hx (chSplit_ne_nil c cs)
  · simp

theorem ofChars_data (l : List Char) : chars (ofChars l) = l := rfl

theorem split_two_shape {p t : String} {rest : List String}
    (h : splitOnChar '/' p = "" :: t :: rest) (ht : t ≠ "") :
    ∃ d ds, chars p = '/' :: d :: ds ∧ (chars t).head? = some d ∧ d ≠ '/' := by
  rcases hp : chars p with _ | ⟨c, cs⟩
  · rw [splitOnChar, hp] at h
    simp [chSplit] at h
  · rw [splitOnChar, hp] at h
    by_cases hc : c = '/'
    · subst hc
      obtain ⟨gs, hgs⟩ := chSplit_head '/' cs
      rw [chSplit_cons_sep, hgs] at h
      simp only [List.map_cons, List.cons.injEq] at h
      have htw : t = ofChars (cs.takeWhile (fun a => !decide (a = '/'))) := h.2.1.symm
      rcases hcs : cs with _ | ⟨d, ds⟩
      · subst hcs
        rw [List.takeWhile_nil] at htw
        exact absurd htw ht
      · subst hcs
        by_cases hd : d = '/'
        · rw [List.takeWhile_cons] at htw
          simp only [hd, decide_True, Bool.not_true, Bool.false_eq_true, if_false] at htw
          exact absurd htw ht
        · refine ⟨d, ds, rfl, ?_, hd⟩
          rw [List.takeWhile_cons] at htw
          simp only [hd, decide_False, Bool.not_false, if_true] at htw
          rw [htw, ofChars_data]
          rfl
    · rcases hx : chSplit '/' cs with _ | ⟨g, gs⟩
      · exact absurd hx (chSplit_ne_nil '/' cs)
      · rw [show chSplit '/' (c :: cs) = (c :: g) :: gs by rw [chSplit, hx]; simp [hc]] at h
        simp only [List.map_cons, List.cons.injEq] at h
        have hdata := congrArg String.data h.1
        simp [ofChars] at hdata

theorem tokOk_cases {t : String} (h : tokOk t = true) :
    t = "*" ∨ (chars t).head? = some ':' ∨
      (t ≠ "" ∧ hasChar ':' t = false ∧ hasChar '*' t = false) := by
  simp only [tokOk, Bool.or_eq_true, Bool.and_eq_true, decide_eq_true_eq, bool_not_true] at h
  tauto

theorem tokOk_ne_empty {t : String} (h : tokOk t = true) : t ≠ "" := by
  intro heq
  rw [heq] at h
  exact absurd h (by decide)

theorem dynStart_pathCls {p t : String} {rest : List String}
    (hsplit : splitOnChar '/' p = "" :: t :: rest) (htok : tokOk t = true) :
    (pathCls t = 0 ∧ dynStart p = false) ∨ (pathCls t = 1 ∧ dynStart p = true) ∨
      (pathCls t = 2 ∧ dynStart p = true) := by
  obtain ⟨d, ds, hp, hhd, hds⟩ := split_two_shape hsplit (tokOk_ne_empty htok)
  have hdyn : dynStart p = (decide (d = ':') || decide (d = '*')) := by
    rw [dynStart, hp]
    rfl
  rcases tokOk_cases htok with hstar | hcolon | ⟨hne, hnc, hns⟩
  · subst hstar
    have hd : d = '*' := by
      have : ('*' : Char) = d := by simpa [chars] using hhd
      exact this.symm
    subst hd
    exact Or.inr (Or.inr ⟨by decide, by simp [hdyn]⟩)
  · have hd : d = ':' := by rw [hcolon] at hhd; exact (Option.some.inj hhd).symm
    subst hd
    have hnstar : t ≠ "*" := by
      intro heq; rw [heq] at hcolon; simp [chars] at hcolon
    have hc : hasChar ':' t = true := by
      rw [hasChar_iff]
      rcases hct : chars t with _ | ⟨e, es⟩
      · rw [hct] at hcolon; simp at hcolon
      · rw [hct] at hcolon
        simp only [List.head?_cons, Option.some.injEq] at hcolon
        subst hcolon
        exact List.mem_cons_self _ _
    refine Or.inr (Or.inl ⟨by simp [pathCls, hnstar, hc], by simp [hdyn]⟩)
  · have hdc : d ∈ chars t := by
      rcases hct : chars t with _ | ⟨e, es⟩
      · rw [hct] at hhd; simp at hhd
      · rw [hct] at hhd
        simp only [List.head?_cons, Option.some.injEq] at hhd
        subst hhd
        exact List.mem_cons_self _ _
    have hdne : d ≠ ':' := fun heq => by
      rw [heq] at hdc
      rw [← hasChar_iff] at hdc
      rw [hdc] at hnc
      cases hnc
    have hdns : d ≠ '*' := fun heq => by
      rw [heq] at hdc
      rw [← hasChar_iff] at hdc
      rw [hdc] at hns
      cases hns
    have hnstar : t ≠ "*" := by
      intro heq
      rw [heq] at hns
      exact absurd hns (by decide)
    exact Or.inl ⟨by simp [pathCls, hnstar, hnc], by simp [hdyn, hdne, hdns]⟩

theorem wf_split {rt : Route} (h : wfRoute rt = true) (h1 : rt.path ≠ "") (h2 : rt.path ≠ "/") :
    ∃ t rest, splitOnChar '/' rt.path = "" :: t :: rest ∧ tokOk t = true := by
  rw [wfRoute, Bool.or_eq_true, Bool.or_eq_true] at h
  rcases h with (h | h) | h
  · exact absurd (of_decide_eq_true h) h1
  · exact absurd (of_decide_eq_true h) h2
  · split at h
    · next t rest heq => exact ⟨t, rest, heq, h⟩
    · simp at h

theorem pathCls_empty_tok : pathCls "" = 0 := by decide

theorem pathCls_cases (t : String) : pathCls t = 0 ∨ pathCls t = 1 ∨ pathCls t = 2 := by
  rw [pathCls]
  split
  · exact Or.inr (Or.inr rfl)
  · split
    · exact Or.inr (Or.inl rfl)
    · exact Or.inl rfl

theorem cmpTokens_cons_of_ne {t u : String} {ra rb : List String}
    (h : pathCls t ≠ pathCls u) :
    cmpTokens (t :: ra) (u :: rb) = pathCls t - pathCls u := by
  have hres : pathCls t - pathCls u ≠ 0 := sub_ne_zero.mpr h
  rw [cmpTokens]
  simp [hres]

theorem cmpTokens_step {t u : String} {ra rb : List String}
    (h : pathCls t = pathCls u) (hra : ra ≠ []) (hrb : rb ≠ []) :
    cmpTokens (t :: ra) (u :: rb) = cmpTokens ra rb := by
  have hres : pathCls t - pathCls u = 0 := sub_eq_zero_of_eq h
  rw [cmpTokens]
  simp [hres, hra, hrb]

theorem cmpTokens_head_step {t u : String} {ra rb : List String} :
    cmpTokens ("" :: t :: ra) ("" :: u :: rb) = cmpTokens (t :: ra) (u :: rb) :=
  cmpTokens_step rfl (by simp) (by simp)

theorem cmpTokens_split_lt {t u : String} {ra rb : List String}
    (h : pathCls t < pathCls u) :
    cmpTokens ("" :: t :: ra) ("" :: u :: rb) < 0 := by
  rw [cmpTokens_head_step, cmpTokens_cons_of_ne (ne_of_lt h)]
  omega

theorem clsPrio_empty {a : Route} (h : a.path = "") : clsPrio a = 0 := by
  simp [clsPrio, h]

theorem clsPrio_root {a : Route} (h : a.path = "/") : clsPrio a = 2 := by
  have : a.path ≠ "" := by rw [h]; simp
  rw [clsPrio, if_neg this, if_pos h]

theorem clsPrio_split {a : Route} {t : String} {rest : List String}
    (h1 : a.path ≠ "") (h2 : a.path ≠ "/")
    (hs : splitOnChar '/' a.path = "" :: t :: rest) :
    clsPrio a = if pathCls t = 0 then 1 else if pathCls t = 1 then 3 else 4 := by
  rw [clsPrio, if_neg h1, if_neg h2, hs]

theorem clsPrio_le_four (a : Route) : clsPrio a ≤ 4 := by
  rw [clsPrio]
  split
  · omega
  · split
    · omega
    · split
      · split
        · omega
        · split <;> omega
      · omega

theorem clsPrio_pos {a : Route} (h : a.path ≠ "") : 1 ≤ clsPrio a := by
  rw [clsPrio, if_neg h]
  split
  · omega
  · split
    · split
      · omega
      · split <;> omega
    · omega

theorem clsPrio_ne_empty {a : Route} (h : 1 ≤ clsPrio a) : a.path ≠ "" := by
  intro heq
  rw [clsPrio_empty heq] at h
  omega

theorem clsPrio_cmp (a b : Route) (ha : wfRoute a = true) (hb : wfRoute b = true)
    (hlt : clsPrio a < clsPrio b) :
    routesSortCmp a b < 0 ∧ ¬ routesSortCmp b a < 0 := by
  by_cases hae : a.path = ""
  · have hbne : b.path ≠ "" := clsPrio_ne_empty (by rw [clsPrio_empty hae] at hlt; omega)
    constructor
    · simp [routesSortCmp, hae]
    · simp [routesSortCmp, hae, hbne]
  · have h1a : 1 ≤ clsPrio a := clsPrio_pos hae
    have hbne : b.path ≠ "" := clsPrio_ne_empty (by omega)
    by_cases har : a.path = "/"
    · have h2 : clsPrio a = 2 := clsPrio_root har
      have hbr : b.path ≠ "/" := by
        intro heq
        rw [h2, clsPrio_root heq] at hlt
        omega
      obtain ⟨u, rb, hsb, htb⟩ := wf_split hb hbne hbr
      have hub : pathCls u ≠ 0 := by
        intro h0
        rw [h2, clsPrio_split hbne hbr hsb, if_pos h0] at hlt
        omega
      have hdb : dynStart b.path = true := by
        rcases dynStart_pathCls hsb htb with ⟨h0, _⟩ | ⟨_, hd⟩ | ⟨_, hd⟩
        · exact absurd h0 hub
        · exact hd
        · exact hd
      constructor
      · simp [routesSortCmp, hae, hbne, har, hdb]
      · simp [routesSortCmp, hae, hbne, har, hbr, hdb]
    · obtain ⟨t, ra, hsa, hta⟩ := wf_split ha hae har
      by_cases hbr : b.path = "/"
      · have hta0 : pathCls t = 0 := by
          rw [clsPrio_split hae har hsa, clsPrio_root hbr] at hlt
          rcases pathCls_cases t with h0 | h1 | h2
          · exact h0
          · rw [if_neg (by omega), if_pos h1] at hlt; omega
          · rw [if_neg (by omega), if_neg (by omega)] at hlt; omega
        have hda : dynStart a.path = false := by
          rcases dynStart_pathCls hsa hta with ⟨_, hd⟩ | ⟨h1, _⟩ | ⟨h2, _⟩
          · exact hd
          · rw [h1] at hta0; omega
          · rw [h2] at hta0; omega
        constructor
        · simp [routesSortCmp, hae, hbne, har, hbr, hda]
        · simp [routesSortCmp, hae, hbne, hbr, hda]
      · obtain ⟨u, rb, hsb, htb⟩ := wf_split hb hbne hbr
        have hcls : pathCls t < pathCls u := by
          rw [clsPrio_split hae har hsa, clsPrio_split hbne hbr hsb] at hlt
          rcases pathCls_cases t with h | h | h <;>
            rcases pathCls_cases u with g | g | g <;>
              simp [h, g] at hlt ⊢
        constructor
        · rw [routesSortCmp, if_neg hae, if_neg hbne, if_neg har, if_neg hbr, hsa, hsb]
          exact cmpTokens_split_lt hcls
        · rw [routesSortCmp, if_neg hbne, if_neg hae, if_neg hbr, if_neg har, hsb, hsa]
          rw [cmpTokens_head_step, cmpTokens_cons_of_ne (ne_of_gt hcls)]
          omega

theorem dynStart_empty_false : dynStart "" = false := by decide

theorem dynStart_root_false : dynStart "/" = false := by decide

theorem rootPrio_cmp (a b : Route) (ha : wfRoute a = true) (hb : wfRoute b = true)
    (hlt : rootPrio a < rootPrio b) :
    routesSortCmp a b < 0 ∧ ¬ routesSortCmp b a < 0 := by
  by_cases hae : a.path = ""
  · have hbne : b.path ≠ "" := by
      intro heq
      rw [rootPrio, if_pos hae, rootPrio, if_pos heq] at hlt
      omega
    constructor
    · simp [routesSortCmp, hae]
    · simp [routesSortCmp, hae, hbne]
  · have hbne : b.path ≠ "" := by
      intro heq
      rw [rootPrio, if_neg hae, rootPrio, if_pos heq] at hlt
      split at hlt <;> omega
    have hda : dynStart a.path = false := by
      rcases hd : dynStart a.path
      · rfl
      · rw [rootPrio, if_neg hae, if_pos hd, rootPrio, if_neg hbne] at hlt
        split at hlt
        · omega
        · split at hlt <;> omega
    by_cases har : a.path = "/"
    · have h2 : rootPrio a = 2 := by rw [rootPrio, if_neg hae, if_neg (by rw [har]; decide), if_pos har]
      have hdb : dynStart b.path = true := by
        rcases hd : dynStart b.path
        · exfalso
          rw [h2, rootPrio, if_neg hbne, if_neg (by rw [hd]; simp)] at hlt
          split at hlt <;> omega
        · rfl
      have hbr : b.path ≠ "/" := by
        intro heq
        rw [heq] at hdb
        exact absurd hdb (by decide)
      constructor
      · simp [routesSortCmp, hae, hbne, har, hdb]
      · simp [routesSortCmp, hae, hbne, har, hbr, hdb]
    · have h1 : rootPrio a = 1 := by
        rw [rootPrio, if_neg hae, if_neg (by simp [hda]), if_neg har]
      by_cases hbr : b.path = "/"
      · constructor
        · simp [routesSortCmp, hae, hbne, har, hbr, hda]
        · simp [routesSortCmp, hae, hbne, hbr, hda]
      · have hdb : dynStart b.path = true := by
          rcases hd : dynStart b.path
          · exfalso
            rw [h1, rootPrio, if_neg hbne, if_neg (by simp [hd]), if_neg hbr] at hlt
            omega
          · rfl
        obtain ⟨t, ra, hsa, hta⟩ := wf_split ha hae har
        obtain ⟨u, rb, hsb, htb⟩ := wf_split hb hbne hbr
        have hta0 : pathCls t = 0 := by
          rcases dynStart_pathCls hsa hta with ⟨h0, _⟩ | ⟨_, hd⟩ | ⟨_, hd⟩
          · exact h0
          · rw [hd] at hda; cases hda
          · rw [hd] at hda; cases hda
        have hub : pathCls u = 1 ∨ pathCls u = 2 := by
          rcases dynStart_pathCls hsb htb with ⟨_, hd⟩ | ⟨h1u, _⟩ | ⟨h2u, _⟩
          · rw [hd] at hdb; cases hdb
          · exact Or.inl h1u
          · exact Or.inr h2u
        have hcls : pathCls t < pathCls u := by rcases hub with h | h <;> omega
        constructor
        · rw [routesSortCmp, if_neg hae, if_neg hbne, if_neg har, if_neg hbr, hsa, hsb]
          exact cmpTokens_split_lt hcls
        · rw [routesSortCmp, if_neg hbne, if_neg hae, if_neg hbr, if_neg har, hsb, hsa]
          rw [cmpTokens_head_step, cmpTokens_cons_of_ne (ne_of_gt hcls)]
          omega

/-- C6: in every sibling list sorted by the comparator (paths shaped as the
builder produces them), the node whose path is exactly the root slash is
placed before every sibling whose path begins with a dynamic or catch-all
token and after every sibling whose path begins with a static token. -/
theorem root_route_placement (l : List Route) (hwf : ∀ rt ∈ l, wfRoute rt = true) :
    List.Pairwise
      (fun a b => (a.path = "/" → staticStart b.path = false) ∧
                  (dynStart a.path = true → b.path ≠ "/"))
      (sortRoutes l) := by
  have h := sortRoutes_pairwise rootPrio l
    (fun a ha b hb hlt => rootPrio_cmp a b (hwf a ha) (hwf b hb) hlt)
  refine h.imp ?_
  intro a b hab
  constructor
  · intro har
    have h2 : rootPrio a = 2 := by
      rw [rootPrio, if_neg (by rw [har]; simp), if_neg (by rw [har]; decide), if_pos har]
    rcases hs : staticStart b.path
    · rfl
    · exfalso
      simp only [staticStart, Bool.and_eq_true, decide_eq_true_eq, bool_not_true] at hs
      have h1 : rootPrio b = 1 := by
        rw [rootPrio, if_neg hs.1.1, if_neg (by simp [hs.2]), if_neg hs.1.2]
      omega
  · intro hda hbr
    have h3 : rootPrio a = 3 := by
      have hane : a.path ≠ "" := by
        intro heq; rw [heq] at hda; exact absurd hda (by decide)
      rw [rootPrio, if_neg hane, if_pos hda]
    have h2 : rootPrio b = 2 := by
      rw [rootPrio, if_neg (by rw [hbr]; simp), if_neg (by rw [hbr]; decide), if_pos hbr]
    omega

theorem root_route_placement_witness :
    List.Pairwise
      (fun a b => (a.path = "/" → staticStart b.path = false) ∧
                  (dynStart a.path = true → b.path ≠ "/"))
      (sortRoutes [Route.mk (some "index") "/" "c1" none false [],
                   Route.mk (some "about") "/about" "c2" none false [],
                   Route.mk (some "id") "/:id?" "c3" none false []]) :=
  root_route_placement _ (by decide)

theorem sorted_clsPrio (l : List Route) (hwf : ∀ rt ∈ l, wfRoute rt = true) :
    List.Pairwise (fun a b => clsPrio a ≤ clsPrio b) (sortRoutes l) :=
  sortRoutes_pairwise clsPrio l (fun a ha b hb hlt => clsPrio_cmp a b (hwf a ha) (hwf b hb) hlt)

theorem cmpTokens_last {x y : String} {xs : List String} (h : pathCls x = pathCls y) :
    cmpTokens (x :: xs) [y] = if x = "*" then -1 else 1 := by
  have hres : pathCls x - pathCls y = 0 := sub_eq_zero_of_eq h
  rw [cmpTokens]
  by_cases hx : x = "*"
  · subst hx
    simp [hres]
  · simp [hres, hx]

theorem cmpTokens_single {x y : String} {ys : List String} (h : pathCls x = pathCls y)
    (hys : ys ≠ []) :
    cmpTokens [x] (y :: ys) = if x = "*" ∧ truthyHead ys then 1 else -1 := by
  have hres : pathCls x - pathCls y = 0 := sub_eq_zero_of_eq h
  rw [cmpTokens]
  simp [hres, hys]

theorem cmpTokens_first_diff :
    ∀ (k : Nat) (ta tb : List String), k < ta.length → k < tb.length →
    (∀ m, m < k → pathCls (ta.getD m "") = pathCls (tb.getD m "")) →
    pathCls (ta.getD k "") ≠ pathCls (tb.getD k "") →
    cmpTokens ta tb = pathCls (ta.getD k "") - pathCls (tb.getD k "") := by
  intro k
  induction k with
  | zero =>
      intro ta tb hka hkb _ hdiff
      rcases ta with _ | ⟨x, xs⟩
      · simp at hka
      · rcases tb with _ | ⟨y, ys⟩
        · simp at hkb
        · simp only [List.getD_cons_zero] at hdiff ⊢
          exact cmpTokens_cons_of_ne hdiff
  | succ k ih =>
      intro ta tb hka hkb hall hdiff
      rcases ta with _ | ⟨x, xs⟩
      · simp at hka
      · rcases tb with _ | ⟨y, ys⟩
        · simp at hkb
        · have h0 : pathCls x = pathCls y := by
            have := hall 0 (Nat.succ_pos k)
            simpa using this
          have hxs : xs ≠ [] := by
            have : k < xs.length := by simpa using Nat.lt_of_succ_lt_succ hka
            exact List.ne_nil_of_length_pos (by omega)
          have hys : ys ≠ [] := by
            have : k < ys.length := by simpa using Nat.lt_of_succ_lt_succ hkb
            exact List.ne_nil_of_length_pos (by omega)
          rw [cmpTokens_step h0 hxs hys]
          simp only [List.getD_cons_succ] at hall hdiff ⊢
          exact ih xs ys (by simpa using Nat.lt_of_succ_lt_succ hka)
            (by simpa using Nat.lt_of_succ_lt_succ hkb)
            (fun m hm => hall (m + 1) (Nat.succ_lt_succ hm)) hdiff

theorem cmpTokens_longer :
    ∀ (tb ta : List String), tb ≠ [] → tb.length ≤ ta.length →
    (∀ m, m < tb.length → pathCls (ta.getD m "") = pathCls (tb.getD m "")) →
    cmpTokens ta tb = if ta.getD (tb.length - 1) "" = "*" then -1 else 1 := by
  intro tb
  induction tb with
  | nil => intro ta h; exact absurd rfl h
  | cons y ys ih =>
      intro ta _ hlen hall
      rcases ta with _ | ⟨x, xs⟩
      · simp at hlen
      · rcases ys with _ | ⟨z, zs⟩
        · have h0 : pathCls x = pathCls y := by simpa using hall 0 (by simp)
          simpa using cmpTokens_last h0
        · have h0 : pathCls x = pathCls y := by simpa using hall 0 (by simp)
          have hxs : xs ≠ [] := by
            simp only [List.length_cons] at hlen
            exact List.ne_nil_of_length_pos (by omega)
          rw [cmpTokens_step h0 hxs (by simp)]
          have := ih xs (by simp) (by simp only [List.length_cons] at hlen ⊢; omega)
            (fun m hm => by
              have := hall (m + 1) (by simp only [List.length_cons] at hm ⊢; omega)
              simpa using this)
          rw [this]
          simp only [List.length_cons, Nat.add_sub_cancel, List.getD_cons_succ]

theorem cmpTokens_shorter :
    ∀ (ta tb : List String), ta ≠ [] → ta.length < tb.length →
    (∀ m, m < ta.length → pathCls (ta.getD m "") = pathCls (tb.getD m "")) →
    cmpTokens ta tb =
      if ta.getD (ta.length - 1) "" = "*" ∧ tb.getD ta.length "" ≠ "" then 1 else -1 := by
  intro ta
  induction ta with
  | nil => intro tb h; exact absurd rfl h
  | cons x xs ih =>
      intro tb _ hlen hall
      rcases tb with _ | ⟨y, ys⟩
      · simp at hlen
      · rcases xs with _ | ⟨w, ws⟩
        · have h0 : pathCls x = pathCls y := by simpa using hall 0 (by simp)
          have hys : ys ≠ [] := by
            simp only [List.length_cons] at hlen
            exact List.ne_nil_of_length_pos (by omega)
          rw [cmpTokens_single h0 hys]
          rcases ys with _ | ⟨h1, t1⟩
          · exact absurd rfl hys
          · simp [truthyHead]
        · have h0 : pathCls x = pathCls y := by simpa using hall 0 (by simp)
          have hys : ys ≠ [] := by
            simp only [List.length_cons] at hlen
            exact List.ne_nil_of_length_pos (by omega)
          rw [cmpTokens_step h0 (by simp) hys]
          have := ih ys (by simp) (by simp only [List.length_cons] at hlen ⊢; omega)
            (fun m hm => by
              have := hall (m + 1) (by simp only [List.length_cons] at hm ⊢; omega)
              simpa using this)
          rw [this]
          simp only [List.length_cons, Nat.add_sub_cancel, List.getD_cons_succ]

/-- C3 counterexample: with the spec example input, the compiled root order
puts the static routes first and the root-path route after them, not first;
and a node with a static first token and a deeper optional-dynamic token also
sorts before the root-path node. -/
theorem sibling_order_root_first_refuted :
    ((createRoutes ["pages/index.vue", "pages/about.vue", "pages/users/index.vue",
        "pages/users/_id.vue", "pages/_.vue"] "src" "pages").map Route.path
      = ["/about", "/users", "/users/:id", "/", "/*"])
  ∧ ((sortRoutes [Route.mk (some "index") "/" "c1" none false [],
        Route.mk (some "a-b") "/a/:b?" "c2" none false []]).map Route.path
      = ["/a/:b?", "/"]) := by
  constructor
  · decide
  · decide

/-- C3 (amended): after every re-sort, sibling order is nondecreasing in the
first-token class priority (empty paths, then static-led paths, then the bare
root, then dynamic-led, then catch-all-led), for paths shaped as the builder
produces them; between two non-root non-empty siblings the comparator is
decided by the first position whose token classes differ, and when every
common position ties it is decided at the final token of the shorter path,
where only a catch-all token beats the longer continuation. -/
theorem sibling_order_by_token_classes :
    (∀ l : List Route, (∀ rt ∈ l, wfRoute rt = true) →
        List.Pairwise (fun a b => clsPrio a ≤ clsPrio b) (sortRoutes l))
  ∧ (∀ (k : Nat) (ta tb : List String), k < ta.length → k < tb.length →
        (∀ m, m < k → pathCls (ta.getD m "") = pathCls (tb.getD m "")) →
        pathCls (ta.getD k "") ≠ pathCls (tb.getD k "") →
        cmpTokens ta tb = pathCls (ta.getD k "") - pathCls (tb.getD k ""))
  ∧ (∀ (ta tb : List String), tb ≠ [] → tb.length ≤ ta.length →
        (∀ m, m < tb.length → pathCls (ta.getD m "") = pathCls (tb.getD m "")) →
        cmpTokens ta tb = if ta.getD (tb.length - 1) "" = "*" then -1 else 1)
  ∧ (∀ (ta tb : List String), ta ≠ [] → ta.length < tb.length →
        (∀ m, m < ta.length → pathCls (ta.getD m "") = pathCls (tb.getD m "")) →
        cmpTokens ta tb =
          if ta.getD (ta.length - 1) "" = "*" ∧ tb.getD ta.length "" ≠ "" then 1 else -1) :=
  ⟨sorted_clsPrio, cmpTokens_first_diff, fun ta tb h1 h2 h3 => cmpTokens_longer tb ta h1 h2 h3,
    cmpTokens_shorter⟩

theorem sibling_order_by_token_classes_witness :
    List.Pairwise (fun a b => clsPrio a ≤ clsPrio b)
      (sortRoutes [Route.mk (some "id") "/:id?" "c3" none false [],
                   Route.mk (some "about") "/about" "c2" none false []]) :=
  sibling_order_by_token_classes.1 _ (by decide)

theorem listComps_append (l1 l2 : List Route) :
    listComps (l1 ++ l2) = listComps l1 ++ listComps l2 := by
  induction l1 with
  | nil => simp [listComps]
  | cons x xs ih => simp [listComps, ih]

theorem insertSorted_perm (x : Route) : ∀ l : List Route, (insertSorted x l).Perm (x :: l) := by
  intro l
  induction l with
  | nil => simp [insertSorted]
  | cons y ys ih =>
      rw [insertSorted]
      split
      · exact List.Perm.refl _
      · exact (List.Perm.cons y ih).trans (List.Perm.swap x y ys)

theorem sortRoutes_perm_aux : ∀ (rest acc : List Route),
    (List.foldl (fun acc x => insertSorted x acc) acc rest).Perm (rest ++ acc) := by
  intro rest
  induction rest with
  | nil => intro acc; simp
  | cons x xs ih =>
      intro acc
      simp only [List.foldl_cons, List.cons_append]
      refine (ih (insertSorted x acc)).trans ?_
      refine (List.Perm.append_left xs (insertSorted_perm x acc)).trans ?_
      exact List.perm_middle

theorem sortRoutes_perm (l : List Route) : (sortRoutes l).Perm l := by
  have := sortRoutes_perm_aux l []
  simpa [sortRoutes] using this

theorem listComps_perm {l1 l2 : List Route} (h : l1.Perm l2) :
    (listComps l1).Perm (listComps l2) := by
  induction h with
  | nil => exact List.Perm.refl _
  | cons x _ ih =>
      simp only [listComps]
      exact List.Perm.append_left _ ih
  | swap x y l =>
      simp only [listComps, ← List.append_assoc]
      exact List.Perm.append_right _ (List.perm_append_comm)
  | trans _ _ ih1 ih2 => exact ih1.trans ih2

theorem findIdxByName_lt_length {n : String} :
    ∀ {l : List Route} {j : Nat}, findIdxByName n l = some j → j < l.length := by
  intro l
  induction l with
  | nil => intro j h; simp [findIdxByName] at h
  | cons x xs ih =>
      intro j h
      rw [findIdxByName] at h
      split at h
      · injection h with h0
        subst h0
        simp
      · simp only [Option.map_eq_some'] at h
        obtain ⟨k, hk, rfl⟩ := h
        have := ih hk
        simp
        omega

theorem listComps_updateAt (f : Route → Route) (comp : String)
    (hyp : ∀ x : Route, (routeComps (f x)).Perm (comp :: routeComps x)) :
    ∀ (j : Nat) (l : List Route), j < l.length →
      (listComps (updateAt f j l)).Perm (comp :: listComps l) := by
  intro j
  induction j with
  | zero =>
      intro l hl
      rcases l with _ | ⟨x, xs⟩
      · simp at hl
      · simp only [updateAt, listComps]
        exact List.Perm.append_right _ (hyp x)
  | succ j ih =>
      intro l hl
      rcases l with _ | ⟨x, xs⟩
      · simp at hl
      · simp only [updateAt, listComps]
        refine (List.Perm.append_left _ (ih xs (by simpa using Nat.lt_of_succ_lt_succ hl))).trans ?_
        exact List.perm_middle

theorem insertKeys_comps (component : String) (chunk : Option String) :
    ∀ (keys : List String) (i : Nat) (accName accPath : String) (sibs : List Route),
      (listComps (insertKeys component chunk keys i accName accPath sibs)).Perm
        (component :: listComps sibs) := by
  intro keys
  induction keys with
  | nil =>
      intro i accName accPath sibs
      rw [insertKeys]
      refine (listComps_perm (sortRoutes_perm _)).trans ?_
      rw [listComps_append]
      simp only [listComps, routeComps, List.append_nil]
      exact List.perm_append_singleton _ _
  | cons key rest ih =>
      intro i accName accPath sibs
      rw [insertKeys]
      rcases hf : findIdxByName (routeNameStep accName key) sibs with _ | j
      · exact ih (i + 1) (routeNameStep accName key) (accPath ++ pathContrib key rest.isEmpty i) sibs
      · refine listComps_updateAt _ component ?_ j sibs (findIdxByName_lt_length hf)
        intro x
        cases x with
        | mk n p c ck h kids =>
            simp only [Route.setKids, routeComps, Route.children]
            refine (List.Perm.cons c (ih (i + 1) (routeNameStep accName key) "" kids)).trans ?_
            exact List.Perm.swap component c _

theorem buildRoutes_comps_aux (srcDir pagesDir : String) :
    ∀ (files : List String) (acc : List Route),
      (listComps (List.foldl
        (fun routes file =>
          let keys := fileToKeys pagesDir file
          insertKeys (r srcDir file) (if keys.isEmpty then none else some (stripExt file))
            keys 0 "" "" routes)
        acc files)).Perm (listComps acc ++ files.map (r srcDir)) := by
  intro files
  induction files with
  | nil => intro acc; simp
  | cons f fs ih =>
      intro acc
      simp only [List.foldl_cons, List.map_cons]
      refine (ih _).trans ?_
      refine (List.Perm.append_right _ (insertKeys_comps _ _ _ _ _ _ _)).trans ?_
      simp only [List.cons_append]
      exact List.perm_middle.symm

theorem buildRoutes_comps (files : List String) (srcDir pagesDir : String) :
    (listComps (buildRoutes files srcDir pagesDir)).Perm (files.map (r srcDir)) := by
  have := buildRoutes_comps_aux srcDir pagesDir files []
  simpa [buildRoutes, listComps] using this

mutual

theorem routeComps_cleanRoute (ic : Bool) (st : Int) (ri : List (List String)) (rt : Route) :
    routeComps (cleanRoute ic st ri rt) = routeComps rt := by
  cases rt with
  | mk n p c ck h kids =>
      cases h with
      | true =>
          rw [cleanRoute]
          split
          · rw [routeComps, routeComps,
              listComps_cleanList true (collectRoutesIndex kids).1 (collectRoutesIndex kids).2 kids]
          · next hfalse => exact absurd rfl hfalse
      | false =>
          rw [cleanRoute]
          split
          · next htrue => exact absurd htrue (by simp)
          · rw [routeComps, routeComps]

theorem listComps_cleanList (ic : Bool) (st : Int) (ri : List (List String)) (l : List Route) :
    listComps (cleanList ic st ri l) = listComps l := by
  cases l with
  | nil => rw [cleanList]
  | cons rt rts =>
      rw [cleanList, listComps, listComps, routeComps_cleanRoute, listComps_cleanList]

end

theorem createRoutes_components (files : List String) (srcDir pagesDir : String) :
    (listComps (createRoutes files srcDir pagesDir)).Perm (files.map (r srcDir)) := by
  rw [createRoutes, cleanChildrenRoutes, listComps_cleanList]
  exact buildRoutes_comps files srcDir pagesDir

/-- C1 counterexample: the same two files in the two orders are permutations
of one another, yet one order yields a single root (the second file nests
under the first) and the other yields two separate roots: the forest shape is
not a pure function of the file-path set. -/
theorem permutation_determinism_refuted :
    (["pages/a/b.vue", "pages/a.vue"].Perm ["pages/a.vue", "pages/a/b.vue"])
  ∧ (createRoutes ["pages/a.vue", "pages/a/b.vue"] "src" "pages").length = 1
  ∧ (createRoutes ["pages/a/b.vue", "pages/a.vue"] "src" "pages").length = 2 :=
  ⟨List.Perm.swap "pages/a.vue" "pages/a/b.vue" [], by decide, by decide⟩

/-- C1 (amended): the compiled forest is a pure function of the input file
list, not of its set: permuted inputs can change the structure, but every
input file is still represented by exactly one node, so the multiset of
component references of the forest is exactly the image of the file list and
is therefore permutation-invariant. -/
theorem forest_components_permutation_invariant :
    (∀ (files : List String) (srcDir pagesDir : String),
        (listComps (createRoutes files srcDir pagesDir)).Perm (files.map (r srcDir)))
  ∧ (∀ (files1 files2 : List String) (srcDir pagesDir : String), files1.Perm files2 →
        (listComps (createRoutes files1 srcDir pagesDir)).Perm
          (listComps (createRoutes files2 srcDir pagesDir))) := by
  refine ⟨createRoutes_components, ?_⟩
  intro files1 files2 srcDir pagesDir hperm
  refine (createRoutes_components files1 srcDir pagesDir).trans ?_
  refine (hperm.map (r srcDir)).trans ?_
  exact (createRoutes_components files2 srcDir pagesDir).symm

theorem forest_components_permutation_invariant_witness :
    (listComps (createRoutes ["pages/a/b.vue", "pages/a.vue"] "src" "pages")).Perm
      (listComps (createRoutes ["pages/a.vue", "pages/a/b.vue"] "src" "pages")) :=
  forest_components_permutation_invariant.2 _ _ _ _
    (List.Perm.swap "pages/a.vue" "pages/a/b.vue" [])

/-- C2 counterexample: with posts/index.ext and posts/_page.ext the dynamic
route keeps the full root-level path with the optional marker rather than the
claimed child pattern, and with posts/_page.ext alone (no index sibling at
any depth) the optional marker is retained, not removed. -/
theorem optional_disambiguation_refuted :
    ((createRoutes ["pages/posts/index.vue", "pages/posts/_page.vue"] "src" "pages").map
        Route.path = ["/posts", "/posts/:page?"])
  ∧ ((createRoutes ["pages/posts/_page.vue"] "src" "pages").map Route.path
        = ["/posts/:page?"])
  ∧ hasChar '?'
      (((createRoutes ["pages/posts/_page.vue"] "src" "pages").headD
          (Route.mk none "" "" none false [])).path) = true := by
  refine ⟨by decide, by decide, by decide⟩

/-- C2 (amended): every underscore-prefixed segment receives the optional
marker at build time; the cleaning pass then removes it exactly at the anchor
position fixed by the index-named siblings of the same sibling list, so with
posts.ext present the _page child is the required :page when posts/index.ext
also exists and stays the optional :page? when it does not. -/
theorem optional_disambiguation_structure :
    ((createRoutes ["pages/posts.vue", "pages/posts/index.vue", "pages/posts/_page.vue"]
        "src" "pages").map (fun rt => rt.children.map Route.path) = [["", ":page"]])
  ∧ ((createRoutes ["pages/posts.vue", "pages/posts/_page.vue"] "src" "pages").map
        (fun rt => rt.children.map Route.path) = [[":page?"]]) := by
  refine ⟨by decide, by decide⟩

/-- C4 counterexample: with the spec example files the forest does contain a
root node named users, but it is the renamed users/index leaf with no
children, while the _id and _id/edit files live under a separate users-id
root: there is no users node with two children. -/
theorem users_merge_refuted :
    ((createRoutes ["pages/users/index.vue", "pages/users/_id.vue",
        "pages/users/_id/edit.vue"] "src" "pages").map
        (fun rt => (rt.name, rt.path, rt.children.length)))
      = [(some "users", "/users", 0), (some "users-id", "/users/:id?", 1)] := by decide

/-- C4 (amended): node lookup is keyed on the full derived name, so
users/_id/edit.ext merges under the users-id node while users/index.ext stays
a separate root (renamed to users by the cleaning pass); each of the three
files is represented by exactly one node, whose components appear once each
in preorder. -/
theorem users_merge_structure :
    ((createRoutes ["pages/users/index.vue", "pages/users/_id.vue",
        "pages/users/_id/edit.vue"] "src" "pages").map (fun rt => (rt.name, rt.path))
      = [(some "users", "/users"), (some "users-id", "/users/:id?")])
  ∧ ((createRoutes ["pages/users/index.vue", "pages/users/_id.vue",
        "pages/users/_id/edit.vue"] "src" "pages").map
        (fun rt => rt.children.map (fun c => (c.name, c.path)))
      = [[], [(some "users-id-edit", "edit")]])
  ∧ (listComps (createRoutes ["pages/users/index.vue", "pages/users/_id.vue",
        "pages/users/_id/edit.vue"] "src" "pages")
      = ["src/pages/users/index.vue", "src/pages/users/_id.vue",
         "src/pages/users/_id/edit.vue"]) := by
  refine ⟨by decide, by decide, by decide⟩

/-- C9 counterexample: flatRoutes itself drops a leaf whose path contains a
colon, and drops the entire subtree of a branch whose path contains one: the
parameterized-route exclusion happens inside the Flattener, not in the
caller. -/
theorem flattener_agnostic_refuted :
    (flatRoutes [Route.mk (some "id") "/:id" "c" none false []] "" [] = [])
  ∧ (flatRoutes [Route.mk (some "id") "/:id" "c" none true
        [Route.mk (some "id-edit") "/edit" "c2" none false []]] "" [] = []) := by
  refine ⟨by decide, by decide⟩

/-- C9 (amended): flatRoutes skips, by itself, every route whose path
contains a colon or an asterisk, together with that route's whole subtree,
leaving the prefix and the output untouched. -/
theorem flattener_skips_parameterized :
    ∀ (rt : Route) (rts : List Route) (p : String) (acc : List String),
      (hasChar ':' rt.path || hasChar '*' rt.path) = true →
      flatRoutes (rt :: rts) p acc = flatRoutes rts p acc := by
  intro rt rts p acc h
  cases rt with
  | mk n pa c ck hk kids =>
      rw [flatRoutes, flatRoutes, flatGo]
      have hone : flatOne (Route.mk n pa c ck hk kids) p acc = (p, acc) := by
        rw [flatOne]
        rw [if_pos (by simpa [Route.path] using h)]
      rw [hone]

theorem flattener_skips_parameterized_witness :
    flatRoutes [Route.mk (some "id") "/:id" "c" none false []] "" []
      = flatRoutes [] "" [] :=
  flattener_skips_parameterized _ [] "" [] (by decide)

/-- C7 counterexample: a root file whose whole derived name is index keeps
the name index after cleaning; the name does not become empty. -/
theorem root_index_name_refuted :
    (createRoutes ["pages/index.vue"] "src" "pages").map Route.name
      = [some "index"] := by decide

theorem endsWithStr_append (s t : String) : endsWithStr t (s ++ t) = true := by
  rw [endsWithStr]
  have : chars (s ++ t) = chars s ++ chars t := rfl
  rw [this]
  exact List.isSuffixOf_iff_suffix.mpr (List.suffix_append (chars s) (chars t))

theorem dropLastN_append (s t : String) : dropLastN (chars t).length (s ++ t) = s := by
  rw [dropLastN]
  have h1 : chars (s ++ t) = chars s ++ chars t := rfl
  rw [h1]
  have h2 : (chars s ++ chars t).length - (chars t).length = (chars s).length := by
    simp
  rw [h2, List.take_left]
  cases s
  rfl

/-- C7 (amended): the cleaning pass strips exactly one trailing dash-index
from every derived name (users-index becomes users), but a name that is the
bare word index, in particular the root index route, carries no dash and is
left unchanged. -/
theorem index_suffix_stripping :
    (∀ s : String, stripDashIndex (s ++ "-index") = s)
  ∧ (stripDashIndex "index" = "index")
  ∧ ((createRoutes ["pages/users/index.vue"] "src" "pages").map Route.name = [some "users"])
  ∧ ((createRoutes ["pages/index.vue"] "src" "pages").map Route.name = [some "index"]) := by
  refine ⟨?_, by decide, by decide, by decide⟩
  intro s
  rw [stripDashIndex, if_pos (endsWithStr_append s "-index")]
  exact dropLastN_append s "-index"

/-- C8 counterexample: when a second file derives the same single index key
(index.js next to index.vue), the second route merges into the existing node
and its path is the empty string, not the root slash, even though its only
segment is a trailing index. -/
theorem trailing_index_merge_refuted :
    ((createRoutes ["pages/index.vue", "pages/index.js"] "src" "pages").map
        (fun rt => (rt.path, rt.children.map (fun c => (c.component, c.path)))))
      = [("/", [("src/pages/index.js", "")])] := by decide

/-- C8 (amended): in the non-merging branch a trailing index key contributes
the root slash as the only segment and the empty string after earlier
segments, while a non-final index key contributes the static text /index;
when the derived name matches an existing node the file merges instead and
its accumulated path is reset to the empty string. -/
theorem trailing_index_contribution :
    (pathContrib "index" true 0 = "/")
  ∧ (∀ i : Nat, 0 < i → pathContrib "index" true i = "")
  ∧ (∀ i : Nat, pathContrib "index" false i = "/index")
  ∧ ((createRoutes ["pages/index.vue"] "src" "pages").map Route.path = ["/"])
  ∧ ((createRoutes ["pages/posts/index.vue"] "src" "pages").map Route.path = ["/posts"])
  ∧ ((createRoutes ["pages/a/index/b.vue"] "src" "pages").map Route.path
      = ["/a/index/b"]) := by
  refine ⟨by decide, ?_, ?_, by decide, by decide, by decide⟩
  · intro i hi
    rw [pathContrib, if_pos (by simp), if_pos hi]
  · intro i
    rfl

theorem trailing_index_contribution_witness : pathContrib "index" true 2 = "" :=
  trailing_index_contribution.2.1 2 (by decide)

theorem cleanList_get? (ic : Bool) (st : Int) (ri : List (List String)) :
    ∀ (l : List Route) (k : Nat),
      (cleanList ic st ri l).get? k = (l.get? k).map (cleanRoute ic st ri) := by
  intro l
  induction l with
  | nil => intro k; rw [cleanList]; simp
  | cons rt rts ih =>
      intro k
      rw [cleanList]
      cases k with
      | zero => simp
      | succ k => simpa using ih k

theorem cleanRoute_fields (ic : Bool) (st : Int) (ri : List (List String))
    (n : Option String) (p c : String) (ck : Option String) (h : Bool) (kids : List Route) :
    (cleanRoute ic st ri (Route.mk n p c ck h kids)).name =
        (if h = true ∧ (kids.any fun c => decide (c.path = "")) = true
         then none else some (stripDashIndex (n.getD ""))) ∧
    (cleanRoute ic st ri (Route.mk n p c ck h kids)).path = cleanPath ic st ri n p ∧
    (cleanRoute ic st ri (Route.mk n p c ck h kids)).component = c ∧
    (cleanRoute ic st ri (Route.mk n p c ck h kids)).chunkName = ck ∧
    (cleanRoute ic st ri (Route.mk n p c ck h kids)).hasChildren = h ∧
    (cleanRoute ic st ri (Route.mk n p c ck h kids)).children =
        (if h = true then
           cleanList true (collectRoutesIndex kids).1 (collectRoutesIndex kids).2 kids
         else kids) := by
  cases h with
  | false =>
      have hcond1 : ¬((false : Bool) = true) := fun hc => Bool.noConfusion hc
      have hcond2 : ¬((false : Bool) = true ∧
          (kids.any fun c => decide (c.path = "")) = true) := fun hc => Bool.noConfusion hc.1
      rw [cleanRoute, if_neg hcond1]
      exact ⟨by rw [if_neg hcond2]; rfl, rfl, rfl, rfl, rfl, by rw [if_neg hcond1]; rfl⟩
  | true =>
      rw [cleanRoute, if_pos rfl]
      refine ⟨?_, rfl, rfl, rfl, rfl, by rw [if_pos rfl]; rfl⟩
      by_cases hany : (kids.any fun c => decide (c.path = "")) = true
      · have hcond : ((true : Bool) = true ∧
            (kids.any fun c => decide (c.path = "")) = true) := ⟨rfl, hany⟩
        rw [if_pos hany, if_pos hcond]
        rfl
      · have hcond : ¬((true : Bool) = true ∧
            (kids.any fun c => decide (c.path = "")) = true) := fun hc => hany hc.2
        rw [if_neg hany, if_neg hcond]
        rfl

/-- C5 counterexample: the same logical page supplied as both index.vue-style
and js-style files under one name gives the parent two children with the
empty path; the cleaning pass still deletes the parent's name, so deletion
does not certify that exactly one child has the empty path. -/
theorem wrapper_collapse_exactly_one_refuted :
    ((createRoutes ["pages/a.vue", "pages/a.js", "pages/a/index.vue"] "src" "pages").map
        (fun rt => (rt.name, (rt.children.filter (fun c => decide (c.path = ""))).length)))
      = [(none, 2)] := by decide

/-- C5 (amended): the cleaning pass deletes a node's name exactly when the
node has a children field and at least one child (not exactly one) occupies
the empty path; the deletion touches nothing else: the children field,
component and chunk are preserved, the children are exactly the recursively
cleaned originals, and the path is the pass's own path rewrite, independent
of whether the name was deleted. -/
theorem wrapper_collapse_name_only :
    ∀ (l : List Route) (ic : Bool) (k : Nat) (rt : Route), l.get? k = some rt →
      ∃ rt2, (cleanChildrenRoutes l ic).get? k = some rt2 ∧
        (rt2.name = none ↔
          rt.hasChildren = true ∧ rt.children.any (fun c => decide (c.path = "")) = true) ∧
        rt2.hasChildren = rt.hasChildren ∧
        rt2.component = rt.component ∧ rt2.chunkName = rt.chunkName ∧
        (rt.hasChildren = true → rt2.children = cleanChildrenRoutes rt.children true) ∧
        (rt.hasChildren = false → rt2.children = rt.children) ∧
        rt2.path = cleanPath ic (collectRoutesIndex l).1 (collectRoutesIndex l).2
          rt.name rt.path := by
  intro l ic k rt hget
  rw [cleanChildrenRoutes]
  refine ⟨cleanRoute ic (collectRoutesIndex l).1 (collectRoutesIndex l).2 rt, ?_, ?_⟩
  · rw [cleanList_get?, hget]
    rfl
  · cases rt with
    | mk n p c ck h kids =>
        obtain ⟨hname, hpath, hcomp, hchunk, hhas, hkids⟩ :=
          cleanRoute_fields ic (collectRoutesIndex l).1 (collectRoutesIndex l).2 n p c ck h kids
        rw [show Route.hasChildren (Route.mk n p c ck h kids) = h from rfl,
            show Route.children (Route.mk n p c ck h kids) = kids from rfl,
            show Route.name (Route.mk n p c ck h kids) = n from rfl,
            show Route.path (Route.mk n p c ck h kids) = p from rfl,
            show Route.component (Route.mk n p c ck h kids) = c from rfl,
            show Route.chunkName (Route.mk n p c ck h kids) = ck from rfl]
        refine ⟨?_, hhas, hcomp, hchunk, ?_, ?_, hpath⟩
        · rw [hname]
          by_cases hc : h = true ∧ (kids.any fun c => decide (c.path = "")) = true
          · rw [if_pos hc]
            exact ⟨fun _ => hc, fun _ => rfl⟩
          · rw [if_neg hc]
            exact ⟨fun hn => Option.noConfusion hn, fun hcc => absurd hcc hc⟩
        · intro hh
          rw [hkids, if_pos hh, cleanChildrenRoutes]
        · intro hh
          have hneg : ¬ h = true := by rw [hh]; exact fun hc => Bool.noConfusion hc
          rw [hkids, if_neg hneg]

theorem wrapper_collapse_name_only_witness :
    ∃ rt2, (cleanChildrenRoutes [Route.mk (some "a") "/a" "c" none true
        [Route.mk (some "a-index") "" "c2" none false []]] false).get? 0 = some rt2 ∧
      rt2.name = none := by
  obtain ⟨rt2, h1, h2, _⟩ := wrapper_collapse_name_only
    [Route.mk (some "a") "/a" "c" none true
      [Route.mk (some "a-index") "" "c2" none false []]] false 0
    (Route.mk (some "a") "/a" "c" none true
      [Route.mk (some "a-index") "" "c2" none false []]) rfl
  exact ⟨rt2, h1, h2.mpr (by decide)⟩
